import Mathlib

/-!
# Verification of the photondb sorted-page and tree layer

A shallow embedding of `src/engine/src/tree/page/sorted_page.rs` and of the
tree-level visibility protocol of the spec.  Page memory is modelled as a
`List Nat` of bytes; raw pointers into a page become indices into that list;
machine integers become `Nat` with an explicit `% 2^32` where the code casts
to `u32`.  Reads past the end of a buffer (undefined behaviour in the source)
are modelled as reading the byte `0`.
-/

set_option maxHeartbeats 1000000

/-- Read one byte of page memory; out-of-range reads yield 0. -/
def getByte (c : List Nat) (i : Nat) : Nat := c.getD i 0

/-- Little-endian encoding of a `u32` value (the source writes
`offset.to_le()` on a little-endian layout). -/
def le32 (x : Nat) : List Nat :=
  [x % 256, x / 256 % 256, x / 256 ^ 2 % 256, x / 256 ^ 3 % 256]

/-- Little-endian decoding of a `u32` at position `p`. -/
def le32At (c : List Nat) (p : Nat) : Nat :=
  getByte c p + 256 * getByte c (p + 1) + 256 ^ 2 * getByte c (p + 2) +
    256 ^ 3 * getByte c (p + 3)

/-- Little-endian encoding of a `u64` value (LSNs are fixed-width
little-endian integer fields, spec section 4.3). -/
def le64 (x : Nat) : List Nat :=
  [x % 256, x / 256 % 256, x / 256 ^ 2 % 256, x / 256 ^ 3 % 256,
   x / 256 ^ 4 % 256, x / 256 ^ 5 % 256, x / 256 ^ 6 % 256, x / 256 ^ 7 % 256]

/-- Little-endian decoding of a `u64` at position `p`. -/
def le64At (c : List Nat) (p : Nat) : Nat :=
  getByte c p + 256 * getByte c (p + 1) + 256 ^ 2 * getByte c (p + 2) +
    256 ^ 3 * getByte c (p + 3) + 256 ^ 4 * getByte c (p + 4) +
    256 ^ 5 * getByte c (p + 5) + 256 ^ 6 * getByte c (p + 6) +
    256 ^ 7 * getByte c (p + 7)

/-- Modelled from the spec: the codec (`Encodable`/`Decodable`,
`BufReader`/`BufWriter`) is not under `src/`; spec sections 4.3 and 6 say
variable-length byte strings are length-prefixed with varints.  LEB128
encoding of a length. -/
def encodeVarintAux : Nat → Nat → List Nat
  | 0, n => [n % 128]
  | fuel + 1, n =>
    if n < 128 then [n] else (n % 128 + 128) :: encodeVarintAux fuel (n / 128)

/-- LEB128 encoding of a length; the fuel `n` always suffices because the
value shrinks by a factor of 128 at each emitted byte. -/
def encodeVarint (n : Nat) : List Nat := encodeVarintAux n n

/-- Fuel-bounded LEB128 decoding, returning the value and the next
position.  The fuel `c.length + 1` always suffices because every step
either consumes an in-range byte or hits the out-of-range byte 0, which
has no continuation bit. -/
def decodeVarintAux (c : List Nat) : Nat → Nat → Nat × Nat
  | 0, p => (0, p)
  | fuel + 1, p =>
    let b := getByte c p
    if b < 128 then (b, p + 1)
    else
      let r := decodeVarintAux c fuel (p + 1)
      (b % 128 + 128 * r.1, r.2)

/-- Decode a varint at position `p`. -/
def decodeVarint (c : List Nat) (p : Nat) : Nat × Nat :=
  decodeVarintAux c (c.length + 1) p

/-- Raw byte-string keys are pairs `(raw_key, lsn)` (spec section 3). -/
abbrev RawBytes := List Nat

/-- Modelled from the spec: the leaf key type is missing from `src/`;
spec section 3 says a key for versioned lookup is logically
`(raw_key, lsn)`. -/
abbrev PageKey := RawBytes × Nat

/-- Values are byte strings. -/
abbrev PageValue := List Nat

/-- A sorted-page entry: a key paired with a value. -/
abbrev PageEntry := PageKey × PageValue

/-- Modelled from the spec: encoding of a length-prefixed byte string
(spec section 4.3, "length-prefixed for variable-length byte strings").
Bytes are stored modulo 256. -/
def encodeBytes (bs : RawBytes) : List Nat :=
  encodeVarint bs.length ++ bs.map (· % 256)

/-- Modelled from the spec: encoded size of a byte string. -/
def encodeSizeBytes (bs : RawBytes) : Nat :=
  (encodeVarint bs.length).length + bs.length

/-- Modelled from the spec: encoding of a `(raw_key, lsn)` key — the
length-prefixed raw key followed by the fixed-width little-endian lsn. -/
def encodeKey (k : PageKey) : List Nat :=
  encodeBytes k.1 ++ le64 k.2

/-- Modelled from the spec: encoded size of a key. -/
def encodeSizeKey (k : PageKey) : Nat :=
  encodeSizeBytes k.1 + 8

/-- Encoded size of a whole `(key, value)` entry. -/
def entrySize (kv : PageEntry) : Nat :=
  encodeSizeKey kv.1 + encodeSizeBytes kv.2

/-- Encoding of a whole `(key, value)` entry: key then value
(`SortedPagePtr::add` encodes the key and then the value). -/
def encodeEntry (kv : PageEntry) : List Nat :=
  encodeKey kv.1 ++ encodeBytes kv.2

/-- Decode a length-prefixed byte string at position `p`, returning the
bytes and the next position. -/
def decodeBytesAt (c : List Nat) (p : Nat) : RawBytes × Nat :=
  let r := decodeVarint c p
  ((List.range r.1).map (fun i => getByte c (r.2 + i)), r.2 + r.1)

/-- Decode a `(raw_key, lsn)` key at position `p`. -/
def decodeKeyAt (c : List Nat) (p : Nat) : PageKey × Nat :=
  let r := decodeBytesAt c p
  ((r.1, le64At c r.2), r.2 + 8)

/-- Decode a whole entry (key then value) at position `p`, mirroring
`SortedPageRef::index`. -/
def decodeEntryAt (c : List Nat) (p : Nat) : PageEntry :=
  let r := decodeKeyAt c p
  (r.1, (decodeBytesAt c r.2).1)

/-- Three-way comparison on `Nat`. -/
def cmpNat (a b : Nat) : Ordering :=
  if a < b then .lt else if b < a then .gt else .eq

/-- Lexicographic three-way comparison on byte strings. -/
def cmpBytes : RawBytes → RawBytes → Ordering
  | [], [] => .eq
  | [], _ :: _ => .lt
  | _ :: _, [] => .gt
  | a :: as, b :: bs =>
    match cmpNat a b with
    | .eq => cmpBytes as bs
    | o => o

/-- Modelled from the spec: the `Ord` instance of the missing key type;
spec section 3 sorts keys by `raw_key` ascending then `lsn` descending. -/
def compareKey (x y : PageKey) : Ordering :=
  match cmpBytes x.1 y.1 with
  | .eq => cmpNat y.2 x.2
  | o => o

/-- Strict key order. -/
def keyLt (x y : PageKey) : Prop := compareKey x y = .lt

/-- Non-strict key order. -/
def keyLe (x y : PageKey) : Prop := compareKey x y ≠ .gt

instance (x y : PageKey) : Decidable (keyLt x y) := by
  unfold keyLt; infer_instance

instance (x y : PageKey) : Decidable (keyLe x y) := by
  unfold keyLe; infer_instance

/-- Modelled from the spec: the page header (spec section 4.3) is
`{kind: u8, chain_len: u8, epoch: u32, next: address, size: u32}` with an
8-byte address, 18 bytes in total. -/
def PAGE_HEADER_SIZE : Nat := 18

/-- `SortedPageBuilder`: counts entries and their total encoded size. -/
structure SortedPageBuilder where
  len : Nat
  size : Nat
deriving DecidableEq

/-- `SortedPageBuilder::default()`. -/
def SortedPageBuilder.default : SortedPageBuilder := ⟨0, 0⟩

/-- `SortedPageBuilder::add`. -/
def SortedPageBuilder.add (b : SortedPageBuilder) (kv : PageEntry) :
    SortedPageBuilder :=
  ⟨b.len + 1, b.size + (encodeSizeKey kv.1 + encodeSizeBytes kv.2)⟩

/-- `SortedPageBuilder::content_size`: `len * size_of::<u32>() + size`. -/
def SortedPageBuilder.content_size (b : SortedPageBuilder) : Nat :=
  b.len * 4 + b.size

/-- `SortedPageBuilder::page_size`: header plus content. -/
def SortedPageBuilder.page_size (b : SortedPageBuilder) : Nat :=
  PAGE_HEADER_SIZE + b.content_size

/-- Modelled from the spec: `BufWriter` is not under `src/`.  It is a write
cursor into the page content; `pos()` reports positions relative to the
beginning of the page content, so that the offsets a `SortedPagePtr` stores
are content-relative and the first one doubles as the entry count times 4
(spec section 4.3: "Base pages carry a count, a dense array of
little-endian 32-bit offsets, then a payload"). -/
structure BufWriter where
  base : Nat
  out : List Nat

/-- `BufWriter::new(ptr)` starting at content position `base`. -/
def BufWriter.new (base : Nat) : BufWriter := ⟨base, []⟩

/-- `BufWriter::pos()`: current content-relative position. -/
def BufWriter.pos (w : BufWriter) : Nat := w.base + w.out.length

/-- Append bytes to the writer. -/
def BufWriter.write (w : BufWriter) (bs : List Nat) : BufWriter :=
  ⟨w.base, w.out ++ bs⟩

/-- `SortedPagePtr`: the offsets written so far (as `u32` values), the
payload writer and the index of the next offset slot. -/
structure SortedPagePtr where
  offsets : List Nat
  payload : BufWriter
  current : Nat

/-- `SortedPagePtr::new`: offsets start at the page content, the payload
writer starts right after the `builder.len` offset slots. -/
def SortedPagePtr.new (builder : SortedPageBuilder) : SortedPagePtr :=
  ⟨[], BufWriter.new (4 * builder.len), 0⟩

/-- `SortedPagePtr::add`: record the payload position as a `u32` offset
(`pos() as u32` is a truncating cast, hence `% 2^32`), then encode the key
and the value. -/
def SortedPagePtr.add (buf : SortedPagePtr) (kv : PageEntry) :
    SortedPagePtr :=
  ⟨buf.offsets ++ [buf.payload.pos % 2 ^ 32],
   (buf.payload.write (encodeKey kv.1)).write (encodeBytes kv.2),
   buf.current + 1⟩

/-- The page content produced by a `SortedPagePtr`: the little-endian
offset array followed by the payload bytes. -/
def SortedPagePtr.content (buf : SortedPagePtr) : List Nat :=
  (buf.offsets.map le32).flatten ++ buf.payload.out

/-- `SortedPageBuilder::build`: allocate `page_size` bytes and wrap them;
`None` exactly when the allocator returns null. -/
def SortedPageBuilder.build (b : SortedPageBuilder)
    (alloc : Nat → Option Unit) : Option SortedPagePtr :=
  (alloc b.page_size).map (fun _ => SortedPagePtr.new b)

/-- `SortedPageBuilder::build_from_iter`: first pass counts every entry,
then allocation, then a second pass (after `rewind`) writes every entry. -/
def SortedPageBuilder.build_from_iter (b : SortedPageBuilder)
    (alloc : Nat → Option Unit) (ps : List PageEntry) :
    Option SortedPagePtr :=
  let counted := ps.foldl SortedPageBuilder.add b
  match alloc counted.page_size with
  | none => none
  | some _ => some (ps.foldl SortedPagePtr.add (SortedPagePtr.new counted))

/-- The content of the page built from `ps` (with an allocator that
succeeds). -/
def builtContent (ps : List PageEntry) : List Nat :=
  (ps.foldl SortedPagePtr.add
    (SortedPagePtr.new (ps.foldl SortedPageBuilder.add
      SortedPageBuilder.default))).content

/-- `SortedPageRef::new`: the number of offsets is recovered as the first
`u32` of the content divided by 4. -/
def SortedPageRef.numEntries (c : List Nat) : Nat := le32At c 0 / 4

/-- `SortedPageRef::len`. -/
def SortedPageRef.len (c : List Nat) : Nat := SortedPageRef.numEntries c

/-- The `i`-th element of the decoded offsets slice. -/
def SortedPageRef.offsetAt (c : List Nat) (i : Nat) : Nat := le32At c (4 * i)

/-- The payload pointer computed by `SortedPageRef::new`:
`offsets_ptr.add(offsets_len)`, i.e. the content position right after the
offsets slice. -/
def SortedPageRef.payloadBase (c : List Nat) : Nat :=
  4 * SortedPageRef.numEntries c

/-- The key decoded by `SortedPageRef::rank` at slot `mid`:
`K::decode_from` at `payload.add(offset)`. -/
def SortedPageRef.keyAtIdx (c : List Nat) (i : Nat) : PageKey :=
  (decodeKeyAt c (SortedPageRef.payloadBase c + SortedPageRef.offsetAt c i)).1

/-- `SortedPageRef::index`: `None` for an out-of-range slot, otherwise the
entry decoded at `payload.add(offset)`. -/
def SortedPageRef.index (c : List Nat) (i : Nat) : Option PageEntry :=
  if i < SortedPageRef.numEntries c then
    some (decodeEntryAt c
      (SortedPageRef.payloadBase c + SortedPageRef.offsetAt c i))
  else none

/-- The loop of `SortedPageRef::rank`: binary search over `[left, right)`
with an early return on an exact key match.  The loop of the source
terminates because the interval shrinks; here a fuel argument plays that
role, and a fuel of `right - left` always suffices because the interval
shrinks at every iteration. -/
def SortedPageRef.rankAux (c : List Nat) (t : PageKey) :
    Nat → Nat → Nat → Nat
  | 0, left, _ => left
  | fuel + 1, left, right =>
    if left < right then
      match compareKey (SortedPageRef.keyAtIdx c ((left + right) / 2)) t with
      | .lt => SortedPageRef.rankAux c t fuel ((left + right) / 2 + 1) right
      | .gt => SortedPageRef.rankAux c t fuel left ((left + right) / 2)
      | .eq => (left + right) / 2
    else left

/-- `SortedPageRef::rank` over the whole page. -/
def SortedPageRef.rank (c : List Nat) (t : PageKey) : Nat :=
  SortedPageRef.rankAux c t (SortedPageRef.numEntries c) 0
    (SortedPageRef.numEntries c)

/-- `SortedPageRef::seek`: `index(rank(target))`. -/
def SortedPageRef.seek (c : List Nat) (t : PageKey) : Option PageEntry :=
  SortedPageRef.index c (SortedPageRef.rank c t)

/-- `SortedPageIter`: the page it walks, the `next` slot and the entry the
last `next()` call returned. -/
structure SortedPageIter where
  page : List Nat
  nexti : Nat
  current : Option PageEntry
deriving DecidableEq

/-- `SortedPageIter::new`. -/
def SortedPageIter.new (c : List Nat) : SortedPageIter := ⟨c, 0, none⟩

/-- One `ForwardIter::next` call: set `current` to `index(next)`, and
advance `next` only when that slot exists. -/
def SortedPageIter.step (s : SortedPageIter) : SortedPageIter :=
  match SortedPageRef.index s.page s.nexti with
  | some e => ⟨s.page, s.nexti + 1, some e⟩
  | none => ⟨s.page, s.nexti, none⟩

/-- The value a `next()` call returns from state `s` (the updated
`current`). -/
def SortedPageIter.nextResult (s : SortedPageIter) : Option PageEntry :=
  SortedPageRef.index s.page s.nexti

/-- `SequentialIter::rewind`. -/
def SortedPageIter.rewind (s : SortedPageIter) : SortedPageIter :=
  ⟨s.page, 0, none⟩

/-- `RandomAccessIter::seek`. -/
def SortedPageIter.seekTo (s : SortedPageIter) (t : PageKey) :
    SortedPageIter :=
  ⟨s.page, SortedPageRef.rank s.page t, none⟩

/-- The state after `k` consecutive `next()` calls. -/
def SortedPageIter.iterN (c : List Nat) (k : Nat) : SortedPageIter :=
  SortedPageIter.step^[k] (SortedPageIter.new c)

/-- An observable operation on a sorted-page iterator. -/
inductive IterOp where
  | step : IterOp
  | seekTo : PageKey → IterOp

/-- Apply one iterator operation. -/
def SortedPageIter.applyOp (s : SortedPageIter) : IterOp → SortedPageIter
  | .step => s.step
  | .seekTo t => s.seekTo t

/-- Apply a sequence of iterator operations. -/
def SortedPageIter.applyOps (s : SortedPageIter) (ops : List IterOp) :
    SortedPageIter :=
  ops.foldl SortedPageIter.applyOp s

/-- `rankAux` stays inside its search interval. -/
theorem rankAux_bounds (c : List Nat) (t : PageKey) :
    ∀ fuel left right, left ≤ right →
      left ≤ SortedPageRef.rankAux c t fuel left right ∧
        SortedPageRef.rankAux c t fuel left right ≤ right := by
  intro fuel
  induction fuel with
  | zero =>
    intro left right h2
    rw [SortedPageRef.rankAux]
    omega
  | succ n ih =>
    intro left right h2
    rw [SortedPageRef.rankAux]
    by_cases h : left < right
    · rw [if_pos h]
      have hml : left ≤ (left + right) / 2 :=
        (Nat.le_div_iff_mul_le (by omega)).mpr (by omega)
      have hmr : (left + right) / 2 < right :=
        (Nat.div_lt_iff_lt_mul (by omega)).mpr (by omega)
      cases hcmp : compareKey (SortedPageRef.keyAtIdx c ((left + right) / 2)) t
      all_goals simp only [hcmp]
      · have := ih ((left + right) / 2 + 1) right (by omega)
        omega
      · omega
      · have := ih left ((left + right) / 2) (by omega)
        omega
    · rw [if_neg h]
      omega

/-- `rank` never exceeds `len`. -/
theorem rank_le_len (c : List Nat) (t : PageKey) :
    SortedPageRef.rank c t ≤ SortedPageRef.numEntries c := by
  have := rankAux_bounds c t (SortedPageRef.numEntries c) 0
    (SortedPageRef.numEntries c) (by omega)
  exact this.2

/-- C10: out-of-range access is total at the public interface: `index i`
is `none` exactly when `i ≥ len`, `rank` always lands in `[0, len]` (so
`seek` never reads the offsets slice out of bounds), and `seek` is `none`
exactly when `rank` equals `len`. -/
theorem c10_total_interface (c : List Nat) (i : Nat) (t : PageKey) :
    (SortedPageRef.index c i = none ↔ SortedPageRef.len c ≤ i) ∧
    SortedPageRef.rank c t ≤ SortedPageRef.len c ∧
    (SortedPageRef.seek c t = none ↔
      SortedPageRef.rank c t = SortedPageRef.len c) := by
  refine ⟨?_, rank_le_len c t, ?_⟩
  · unfold SortedPageRef.index SortedPageRef.len
    split
    · simp; omega
    · simp; omega
  · unfold SortedPageRef.seek SortedPageRef.index SortedPageRef.len
    have hb := rank_le_len c t
    split
    · simp
      omega
    · simp
      unfold SortedPageRef.len at hb
      omega

/-- C8: building a page fails exactly when the allocator fails on the
requested page size, in which case no page is produced; on success a page
is produced.  Stated for both `build` and `build_from_iter`. -/
theorem c8_build_alloc_failure (alloc : Nat → Option Unit)
    (b : SortedPageBuilder) (ps : List PageEntry) :
    (b.build alloc = none ↔ alloc b.page_size = none) ∧
    (SortedPageBuilder.build_from_iter SortedPageBuilder.default alloc ps =
        none ↔
      alloc (ps.foldl SortedPageBuilder.add
        SortedPageBuilder.default).page_size = none) ∧
    (∀ u, alloc (ps.foldl SortedPageBuilder.add
        SortedPageBuilder.default).page_size = some u →
      SortedPageBuilder.build_from_iter SortedPageBuilder.default alloc ps =
        some (ps.foldl SortedPagePtr.add
          (SortedPagePtr.new
            (ps.foldl SortedPageBuilder.add SortedPageBuilder.default)))) := by
  refine ⟨?_, ?_, ?_⟩
  · unfold SortedPageBuilder.build
    cases alloc b.page_size <;> simp
  · unfold SortedPageBuilder.build_from_iter
    cases halloc : alloc (ps.foldl SortedPageBuilder.add
      SortedPageBuilder.default).page_size <;> simp [halloc]
  · intro u hu
    unfold SortedPageBuilder.build_from_iter
    simp [hu]

/-- After `k` calls to `next`, the iterator still walks the same page and
its position is `min k len`. -/
theorem iterN_spec (c : List Nat) (k : Nat) :
    (SortedPageIter.iterN c k).page = c ∧
      (SortedPageIter.iterN c k).nexti =
        min k (SortedPageRef.numEntries c) := by
  induction k with
  | zero => simp [SortedPageIter.iterN, SortedPageIter.new]
  | succ k ih =>
    have hstep : SortedPageIter.iterN c (k + 1) =
        (SortedPageIter.iterN c k).step := by
      unfold SortedPageIter.iterN
      exact Function.iterate_succ_apply' _ _ _
    rw [hstep]
    unfold SortedPageIter.step
    cases hidx : SortedPageRef.index (SortedPageIter.iterN c k).page
      (SortedPageIter.iterN c k).nexti
    · have : SortedPageRef.numEntries c ≤ k := by
        unfold SortedPageRef.index at hidx
        rw [ih.1, ih.2] at hidx
        by_cases hlt : min k (SortedPageRef.numEntries c) <
            SortedPageRef.numEntries c
        · rw [if_pos hlt] at hidx; cases hidx
        · omega
      simp only []
      refine ⟨ih.1, ?_⟩
      rw [ih.2]
      omega
    · have : k < SortedPageRef.numEntries c := by
        unfold SortedPageRef.index at hidx
        rw [ih.1, ih.2] at hidx
        by_cases hlt : min k (SortedPageRef.numEntries c) <
            SortedPageRef.numEntries c
        · omega
        · rw [if_neg hlt] at hidx; cases hidx
      simp only []
      refine ⟨ih.1, ?_⟩
      rw [ih.2]
      omega

/-- C9: on any decoded page the iterator returns the entries at slots
`0, …, len-1`, one per `next` call; after the `len`-th call every `next`
returns `none` without moving the position, and `current()` stays
`none` — the iterator is fused. -/
theorem c9_iterator_in_order (c : List Nat) (k : Nat) :
    (k < SortedPageRef.numEntries c →
      SortedPageIter.nextResult (SortedPageIter.iterN c k) =
        SortedPageRef.index c k) ∧
    (SortedPageRef.numEntries c ≤ k →
      SortedPageIter.nextResult (SortedPageIter.iterN c k) = none ∧
      (SortedPageIter.step (SortedPageIter.iterN c k)).nexti =
        (SortedPageIter.iterN c k).nexti ∧
      (SortedPageIter.iterN c (k + 1)).current = none) := by
  have hs := iterN_spec c k
  constructor
  · intro hk
    unfold SortedPageIter.nextResult
    rw [hs.1, hs.2]
    congr 1
    omega
  · intro hk
    have hmin : min k (SortedPageRef.numEntries c) =
        SortedPageRef.numEntries c := by omega
    have hres : SortedPageIter.nextResult (SortedPageIter.iterN c k) =
        none := by
      unfold SortedPageIter.nextResult
      rw [hs.1, hs.2, hmin]
      unfold SortedPageRef.index
      rw [if_neg (by omega)]
    refine ⟨hres, ?_, ?_⟩
    · unfold SortedPageIter.step
      unfold SortedPageIter.nextResult at hres
      rw [hres]
    · have hstep : SortedPageIter.iterN c (k + 1) =
          (SortedPageIter.iterN c k).step := by
        unfold SortedPageIter.iterN
        exact Function.iterate_succ_apply' _ _ _
      rw [hstep]
      unfold SortedPageIter.step
      unfold SortedPageIter.nextResult at hres
      rw [hres]

/-- Iterator operations never change the underlying page. -/
theorem applyOps_page (ops : List IterOp) :
    ∀ s : SortedPageIter, (s.applyOps ops).page = s.page := by
  induction ops with
  | nil => intro s; rfl
  | cons op t ih =>
    intro s
    have h1 : s.applyOps (op :: t) = (s.applyOp op).applyOps t := rfl
    rw [h1, ih]
    cases op with
    | step =>
      unfold SortedPageIter.applyOp SortedPageIter.step
      cases SortedPageRef.index s.page s.nexti <;> rfl
    | seekTo t' => rfl

/-- C7: the iterator is restartable: after any sequence of `next` and
`seek` calls, `rewind` restores the freshly-created iterator state, so
every subsequent `next` call returns exactly what a fresh iterator over
the same page would return. -/
theorem c7_rewind_restarts (c : List Nat) (ops : List IterOp) :
    ((SortedPageIter.new c).applyOps ops).rewind = SortedPageIter.new c ∧
    ∀ k, SortedPageIter.nextResult
        (SortedPageIter.step^[k] (((SortedPageIter.new c).applyOps
          ops).rewind)) =
      SortedPageIter.nextResult
        (SortedPageIter.step^[k] (SortedPageIter.new c)) := by
  have hpage : ((SortedPageIter.new c).applyOps ops).page = c :=
    applyOps_page ops (SortedPageIter.new c)
  have hrw : ((SortedPageIter.new c).applyOps ops).rewind =
      SortedPageIter.new c := by
    unfold SortedPageIter.rewind
    rw [hpage]
    rfl
  exact ⟨hrw, fun k => by rw [hrw]⟩

/-- C1: the round-trip fails on the code.  Building a page from the single
pair `((raw_key [1], lsn 5), value [7])` and decoding it recovers the
right `len`, but `index 0` does not return the pair: the reader adds the
stored offset to the payload base although the stored offset is already
content-relative (it has to be content-relative for the reader's own
count recovery `offsets[0] / 4` to produce `len = 1`), so the entry is
decoded 4·len bytes past its true position. -/
theorem c1_roundtrip_code_bug :
    SortedPageRef.len (builtContent [(([1], 5), [7])]) = 1 ∧
    SortedPageRef.index (builtContent [(([1], 5), [7])]) 0 ≠
      some ((([1] : List Nat), 5), ([7] : List Nat)) ∧
    SortedPageRef.index (builtContent [(([1], 5), [7])]) 0 =
      some ((([] : List Nat), 1971424348602368), ([] : List Nat)) := by
  refine ⟨by decide, by decide, by decide⟩

/-- The offsets the spec's layout prescribes: one 32-bit offset per record,
dense, each locating the next record, starting right after the offset
array. -/
def offsetsFrom (start : Nat) : List PageEntry → List Nat
  | [] => []
  | kv :: t => start % 2 ^ 32 :: offsetsFrom (start + entrySize kv) t

/-- The offset array of a page holding `ps`, offsets taken relative to the
page content. -/
def specOffsets (ps : List PageEntry) : List Nat :=
  offsetsFrom (4 * ps.length) ps

/-- The payload the spec's layout prescribes: the concatenated encoded
`(key, value)` records. -/
def specPayload (ps : List PageEntry) : List Nat :=
  (ps.map encodeEntry).flatten

/-- Encoding a byte string produces exactly `encodeSizeBytes` bytes. -/
theorem encodeBytes_length (bs : RawBytes) :
    (encodeBytes bs).length = encodeSizeBytes bs := by
  simp [encodeBytes, encodeSizeBytes]

/-- Encoding an entry produces exactly `entrySize` bytes. -/
theorem encodeEntry_length (kv : PageEntry) :
    (encodeEntry kv).length = entrySize kv := by
  simp [encodeEntry, encodeKey, entrySize, encodeSizeKey,
    encodeBytes_length, le64]
  omega

/-- Every entry occupies at least one byte. -/
theorem entrySize_pos (kv : PageEntry) : 0 < entrySize kv := by
  unfold entrySize encodeSizeKey
  omega

/-- Folding `SortedPageBuilder::add` counts the entries and sums their
encoded sizes. -/
theorem foldl_builder_add (ps : List PageEntry) :
    ∀ b : SortedPageBuilder,
      ps.foldl SortedPageBuilder.add b =
        ⟨b.len + ps.length, b.size + (ps.map entrySize).sum⟩ := by
  induction ps with
  | nil => intro b; simp
  | cons kv t ih =>
    intro b
    rw [List.foldl_cons, ih]
    simp only [SortedPageBuilder.add, List.map_cons, List.sum_cons,
      List.length_cons, SortedPageBuilder.mk.injEq]
    unfold entrySize
    omega

/-- Folding `SortedPagePtr::add` appends the dense offset array and the
concatenated encoded records. -/
theorem foldl_page_add (ps : List PageEntry) :
    ∀ (o : List Nat) (w : BufWriter) (cur : Nat),
      ps.foldl SortedPagePtr.add ⟨o, w, cur⟩ =
        ⟨o ++ offsetsFrom (w.base + w.out.length) ps,
         ⟨w.base, w.out ++ specPayload ps⟩, cur + ps.length⟩ := by
  induction ps with
  | nil => intro o w cur; simp [specPayload, offsetsFrom]
  | cons kv t ih =>
    intro o w cur
    rw [List.foldl_cons]
    have hstep : SortedPagePtr.add ⟨o, w, cur⟩ kv =
        ⟨o ++ [(w.base + w.out.length) % 2 ^ 32],
         ⟨w.base, w.out ++ encodeEntry kv⟩, cur + 1⟩ := by
      simp [SortedPagePtr.add, BufWriter.write, BufWriter.pos, encodeEntry]
    rw [hstep, ih]
    have hel : (encodeEntry kv).length = entrySize kv := encodeEntry_length kv
    simp only [offsetsFrom, specPayload, List.map_cons, List.flatten_cons,
      List.length_append, List.length_cons, hel, SortedPagePtr.mk.injEq,
      BufWriter.mk.injEq]
    refine ⟨?_, ⟨trivial, ?_⟩, by omega⟩
    · rw [List.append_assoc, List.singleton_append]
      have harg : w.base + (w.out.length + entrySize kv) =
          w.base + w.out.length + entrySize kv := by omega
      rw [harg]
    · rw [List.append_assoc]

/-- Closed form of the content built from a list of pairs. -/
theorem builtContent_eq (ps : List PageEntry) :
    builtContent ps = ((specOffsets ps).map le32).flatten ++ specPayload ps := by
  unfold builtContent
  rw [foldl_builder_add]
  have hnew : SortedPagePtr.new
      ⟨SortedPageBuilder.default.len + ps.length,
       SortedPageBuilder.default.size + (ps.map entrySize).sum⟩ =
      (⟨[], ⟨4 * ps.length, []⟩, 0⟩ : SortedPagePtr) := by
    simp [SortedPagePtr.new, BufWriter.new, SortedPageBuilder.default]
  rw [hnew, foldl_page_add]
  unfold SortedPagePtr.content
  simp [specOffsets]

/-- Decoding a `u32` written at the front of a buffer. -/
theorem le32At_le32_append (x : Nat) (rest : List Nat) :
    le32At (le32 x ++ rest) 0 = x % 2 ^ 32 := by
  simp [le32At, le32, getByte]
  omega

/-- Every offset produced by `offsetsFrom start` is at least `start`,
provided no truncation occurs. -/
theorem mem_offsetsFrom_ge (ps : List PageEntry) :
    ∀ start x, start + (ps.map entrySize).sum < 2 ^ 32 →
      x ∈ offsetsFrom start ps → start ≤ x := by
  induction ps with
  | nil => intro start x _ hx; cases hx
  | cons kv t ih =>
    intro start x hb hx
    rw [offsetsFrom] at hx
    rcases List.mem_cons.mp hx with h | h
    · subst h
      rw [Nat.mod_eq_of_lt (by simp at hb; omega)]
    · have := ih (start + entrySize kv) x (by simp at hb ⊢; omega) h
      omega

/-- The offsets are strictly ascending when the content fits in 32 bits. -/
theorem offsetsFrom_ascending (ps : List PageEntry) :
    ∀ start, start + (ps.map entrySize).sum < 2 ^ 32 →
      (offsetsFrom start ps).Pairwise (· < ·) := by
  induction ps with
  | nil => intro start _; simp [offsetsFrom]
  | cons kv t ih =>
    intro start hb
    simp only [List.map_cons, List.sum_cons] at hb
    rw [offsetsFrom]
    refine List.Pairwise.cons ?_ (ih (start + entrySize kv) (by omega))
    intro x hx
    have hge := mem_offsetsFrom_ge t (start + entrySize kv) x (by omega) hx
    have hpos := entrySize_pos kv
    rw [Nat.mod_eq_of_lt (by omega)]
    omega

/-- C3: a built base page is the dense little-endian 32-bit offset array
followed by the concatenated encoded records; its size is exactly
`PAGE_HEADER_SIZE + 4·n + Σ encoded sizes`; the entry count is carried by
the page (the first offset equals `4·n`, and `SortedPageRef::new` recovers
`n` from it); offsets are dense and ascending, and with sorted input the
records they locate are in ascending key order. -/
theorem c3_page_layout (ps : List PageEntry)
    (hsize : 4 * ps.length + (ps.map entrySize).sum < 2 ^ 32)
    (hsorted : ps.Pairwise (fun a b => keyLt a.1 b.1)) :
    (ps.foldl SortedPageBuilder.add SortedPageBuilder.default).page_size =
      PAGE_HEADER_SIZE + 4 * ps.length + (ps.map entrySize).sum ∧
    builtContent ps =
      ((specOffsets ps).map le32).flatten ++ specPayload ps ∧
    SortedPageRef.numEntries (builtContent ps) = ps.length ∧
    (specOffsets ps).Pairwise (· < ·) ∧
    (ps.map (fun kv => kv.1)).Pairwise keyLt := by
  refine ⟨?_, builtContent_eq ps, ?_, ?_, ?_⟩
  · rw [foldl_builder_add]
    unfold SortedPageBuilder.page_size SortedPageBuilder.content_size
      SortedPageBuilder.default
    simp
    omega
  · rw [builtContent_eq]
    unfold SortedPageRef.numEntries
    cases ps with
    | nil => simp [specOffsets, offsetsFrom, specPayload, le32At, getByte]
    | cons kv t =>
      rw [specOffsets, offsetsFrom]
      simp only [List.map_cons, List.flatten_cons, List.append_assoc]
      rw [le32At_le32_append]
      have hlen : (kv :: t).length = t.length + 1 := rfl
      have h4 : 4 * (kv :: t).length < 2 ^ 32 := by
        simp at hsize ⊢
        omega
      rw [Nat.mod_eq_of_lt h4, Nat.mod_eq_of_lt h4]
      omega
  · exact offsetsFrom_ascending ps (4 * ps.length) hsize
  · exact List.Pairwise.map _ (fun a b h => h) hsorted

/-- A concrete two-entry page used by the C3 witness. -/
def c3ps : List PageEntry := [(([1], 5), [9]), (([2], 3), [8])]

/-- Witness for the C3 layout theorem at a concrete two-entry page. -/
theorem c3_page_layout_witness :
    (4 * c3ps.length + (c3ps.map entrySize).sum < 2 ^ 32 ∧
      c3ps.Pairwise (fun a b => keyLt a.1 b.1)) ∧
    SortedPageRef.numEntries (builtContent c3ps) = c3ps.length :=
  ⟨⟨by decide, by decide⟩,
   (c3_page_layout c3ps (by decide) (by decide)).2.2.1⟩

/-- `cmpNat` decides `<` on the left. -/
theorem cmpNat_lt_iff (a b : Nat) : cmpNat a b = .lt ↔ a < b := by
  unfold cmpNat
  by_cases h1 : a < b
  · simp [h1]
  · by_cases h2 : b < a <;> simp [h1, h2]

/-- `cmpNat` decides `<` on the right. -/
theorem cmpNat_gt_iff (a b : Nat) : cmpNat a b = .gt ↔ b < a := by
  unfold cmpNat
  by_cases h1 : a < b
  · simp [h1]; omega
  · by_cases h2 : b < a <;> simp [h1, h2]

/-- `cmpNat` decides equality. -/
theorem cmpNat_eq_iff (a b : Nat) : cmpNat a b = .eq ↔ a = b := by
  unfold cmpNat
  by_cases h1 : a < b
  · simp [h1]; omega
  · by_cases h2 : b < a <;> simp [h1, h2] <;> omega

/-- Swapping the arguments of `cmpNat` swaps the verdict. -/
theorem cmpNat_swap (a b : Nat) : cmpNat b a = (cmpNat a b).swap := by
  unfold cmpNat
  by_cases h1 : a < b <;> by_cases h2 : b < a <;>
    simp [h1, h2, Ordering.swap] <;> omega

/-- `cmpBytes` decides equality of byte strings. -/
theorem cmpBytes_eq_iff (a : RawBytes) :
    ∀ b, cmpBytes a b = .eq ↔ a = b := by
  induction a with
  | nil => intro b; cases b <;> simp [cmpBytes]
  | cons x xs ih =>
    intro b
    cases b with
    | nil => simp [cmpBytes]
    | cons y ys =>
      simp only [cmpBytes]
      cases hxy : cmpNat x y
      · simp
        intro hx
        rw [hx, cmpNat_lt_iff] at hxy
        omega
      · have hx : x = y := (cmpNat_eq_iff x y).mp hxy
        simp [hx, ih ys]
      · simp
        intro hx
        rw [hx, cmpNat_gt_iff] at hxy
        omega

/-- `cmpBytes` is reflexive. -/
theorem cmpBytes_refl (a : RawBytes) : cmpBytes a a = .eq :=
  (cmpBytes_eq_iff a a).mpr rfl

/-- Swapping the arguments of `cmpBytes` swaps the verdict. -/
theorem cmpBytes_swap (a : RawBytes) :
    ∀ b, cmpBytes b a = (cmpBytes a b).swap := by
  induction a with
  | nil => intro b; cases b <;> simp [cmpBytes, Ordering.swap]
  | cons x xs ih =>
    intro b
    cases b with
    | nil => simp [cmpBytes, Ordering.swap]
    | cons y ys =>
      simp only [cmpBytes]
      rw [cmpNat_swap x y]
      cases hxy : cmpNat x y <;> simp [Ordering.swap, ih ys]

/-- `cmpBytes` is transitive in its strict verdict. -/
theorem cmpBytes_lt_trans (a : RawBytes) :
    ∀ b c, cmpBytes a b = .lt → cmpBytes b c = .lt → cmpBytes a c = .lt := by
  induction a with
  | nil =>
    intro b c h1 h2
    cases b with
    | nil => simp [cmpBytes] at h1
    | cons y ys =>
      cases c with
      | nil => simp [cmpBytes] at h2
      | cons z zs => simp [cmpBytes]
  | cons x xs ih =>
    intro b c h1 h2
    cases b with
    | nil => simp [cmpBytes] at h1
    | cons y ys =>
      cases c with
      | nil => simp [cmpBytes] at h2
      | cons z zs =>
        simp only [cmpBytes] at h1 h2 ⊢
        cases hxy : cmpNat x y
        · -- x < y
          have hx : x < y := (cmpNat_lt_iff x y).mp hxy
          cases hyz : cmpNat y z
          · have hy : y < z := (cmpNat_lt_iff y z).mp hyz
            rw [(cmpNat_lt_iff x z).mpr (by omega)]
          · have hy : y = z := (cmpNat_eq_iff y z).mp hyz
            rw [(cmpNat_lt_iff x z).mpr (by omega)]
          · rw [hyz] at h2; simp at h2
        · -- x = y
          have hx : x = y := (cmpNat_eq_iff x y).mp hxy
          rw [hxy] at h1
          simp only [] at h1
          cases hyz : cmpNat y z
          · have hy : y < z := (cmpNat_lt_iff y z).mp hyz
            rw [(cmpNat_lt_iff x z).mpr (by omega)]
          · have hy : y = z := (cmpNat_eq_iff y z).mp hyz
            rw [hyz] at h2
            simp only [] at h2
            subst hx; subst hy
            rw [(cmpNat_eq_iff x x).mpr rfl]
            exact ih ys zs h1 h2
          · rw [hyz] at h2; simp at h2
        · -- x > y
          rw [hxy] at h1; simp at h1

/-- `compareKey` decides equality of keys. -/
theorem compareKey_eq_iff (x y : PageKey) : compareKey x y = .eq ↔ x = y := by
  unfold compareKey
  cases hb : cmpBytes x.1 y.1
  · simp
    intro h
    rw [h, cmpBytes_refl] at hb
    cases hb
  · rw [cmpBytes_eq_iff] at hb
    rw [cmpNat_eq_iff]
    constructor
    · intro h
      exact Prod.ext hb h.symm
    · intro h
      rw [h]
  · simp
    intro h
    rw [h, cmpBytes_refl] at hb
    cases hb

/-- Swapping the arguments of `compareKey` swaps the verdict. -/
theorem compareKey_swap (x y : PageKey) :
    compareKey y x = (compareKey x y).swap := by
  unfold compareKey
  rw [cmpBytes_swap x.1 y.1]
  cases hb : cmpBytes x.1 y.1
  · rfl
  · exact cmpNat_swap y.2 x.2
  · rfl

/-- The key order is transitive. -/
theorem keyLt_trans {x y z : PageKey} (h1 : keyLt x y) (h2 : keyLt y z) :
    keyLt x z := by
  unfold keyLt compareKey at h1 h2 ⊢
  cases hxy : cmpBytes x.1 y.1 <;> rw [hxy] at h1
  · cases hyz : cmpBytes y.1 z.1 <;> rw [hyz] at h2
    · rw [cmpBytes_lt_trans x.1 y.1 z.1 hxy hyz]
    · rw [cmpBytes_eq_iff] at hyz
      rw [← hyz, hxy]
    · simp at h2
  · rw [cmpBytes_eq_iff] at hxy
    cases hyz : cmpBytes y.1 z.1 <;> rw [hyz] at h2
    · rw [hxy, hyz]
    · rw [cmpBytes_eq_iff] at hyz
      rw [hxy, hyz, cmpBytes_refl]
      rw [cmpNat_lt_iff] at h1 h2 ⊢
      omega
    · simp at h2
  · simp at h1

/-- The key order is irreflexive. -/
theorem keyLt_irrefl (x : PageKey) : ¬ keyLt x x := by
  unfold keyLt
  rw [(compareKey_eq_iff x x).mpr rfl]
  simp

/-- The key order is asymmetric. -/
theorem keyLt_asymm {x y : PageKey} (h : keyLt x y) : ¬ keyLt y x := by
  unfold keyLt at h ⊢
  rw [compareKey_swap, h]
  simp [Ordering.swap]

/-- Failing to be strictly above means being at or below. -/
theorem not_keyLt_to_keyLe {x y : PageKey} (h : ¬ keyLt x y) : keyLe y x := by
  unfold keyLt at h
  unfold keyLe
  rw [compareKey_swap]
  cases hc : compareKey x y <;> simp [Ordering.swap]
  exact h hc

/-- A strict verdict gives a non-strict one. -/
theorem keyLt_to_keyLe {x y : PageKey} (h : keyLt x y) : keyLe x y := by
  unfold keyLt at h
  unfold keyLe
  rw [h]
  simp

/-- `keyLe` is reflexive. -/
theorem keyLe_refl (x : PageKey) : keyLe x x := by
  unfold keyLe
  rw [(compareKey_eq_iff x x).mpr rfl]
  simp

/-- Comparing two keys with the same raw key compares their lsns in
reverse. -/
theorem compareKey_same_raw (r : RawBytes) (a b : Nat) :
    compareKey (r, a) (r, b) = cmpNat b a := by
  unfold compareKey
  rw [cmpBytes_refl]

/-- With equal raw keys, `keyLe` is the reverse order on lsns. -/
theorem keyLe_same_raw (r : RawBytes) (a b : Nat) :
    keyLe (r, a) (r, b) ↔ b ≤ a := by
  unfold keyLe
  rw [compareKey_same_raw]
  rw [show (cmpNat b a ≠ .gt) = ¬ (cmpNat b a = .gt) from rfl]
  rw [cmpNat_gt_iff]
  omega

/-- A key sandwiched between two keys with the same raw key has that raw
key, and its lsn lies between theirs. -/
theorem key_sandwich {r : RawBytes} {L l0 : Nat} {x : PageKey}
    (h1 : keyLe (r, L) x) (h2 : keyLe x (r, l0)) :
    x.1 = r ∧ x.2 ≤ L ∧ l0 ≤ x.2 := by
  unfold keyLe compareKey at h1 h2
  dsimp only at h1 h2
  cases hb : cmpBytes (r : RawBytes) x.1
  · -- r < x.1, so x.1 > r; then cmpBytes x.1 r = .gt contradicts h2
    exfalso
    apply h2
    have : cmpBytes x.1 r = .gt := by
      rw [cmpBytes_swap r x.1, hb]
      rfl
    rw [this]
  · have hxr : x.1 = r := ((cmpBytes_eq_iff r x.1).mp hb).symm
    rw [hb] at h1
    have hbx : cmpBytes x.1 r = .eq := (cmpBytes_eq_iff x.1 r).mpr hxr
    rw [hbx] at h2
    refine ⟨hxr, ?_, ?_⟩
    · have := (cmpNat_gt_iff x.2 L).not.mp h1
      omega
    · have := (cmpNat_gt_iff l0 x.2).not.mp h2
      omega
  · exfalso
    apply h1
    rw [hb]

/-- A page whose decoded keys are strictly ascending in the versioned key
order (raw key ascending, lsn descending). -/
def pageSorted (c : List Nat) : Prop :=
  ∀ j, j < SortedPageRef.numEntries c → ∀ i, i < j →
    keyLt (SortedPageRef.keyAtIdx c i) (SortedPageRef.keyAtIdx c j)

instance (c : List Nat) : Decidable (pageSorted c) := by
  unfold pageSorted
  infer_instance

/-- The binary search of `SortedPageRef::rank` computes the lower bound:
everything below the result is strictly below the target, and everything
at or above the result is at or above the target. -/
theorem rankAux_correct (c : List Nat) (t : PageKey) (hs : pageSorted c) :
    ∀ fuel left right, right - left ≤ fuel → left ≤ right →
      right ≤ SortedPageRef.numEntries c →
      (∀ k, k < left → keyLt (SortedPageRef.keyAtIdx c k) t) →
      (∀ k, right ≤ k → k < SortedPageRef.numEntries c →
        keyLt t (SortedPageRef.keyAtIdx c k)) →
      (∀ k, k < SortedPageRef.rankAux c t fuel left right →
        keyLt (SortedPageRef.keyAtIdx c k) t) ∧
      (∀ k, SortedPageRef.rankAux c t fuel left right ≤ k →
        k < SortedPageRef.numEntries c →
        ¬ keyLt (SortedPageRef.keyAtIdx c k) t) := by
  intro fuel
  induction fuel with
  | zero =>
    intro l r h1 h2 h3 hl hr
    rw [SortedPageRef.rankAux]
    refine ⟨fun k hk => hl k hk, fun k hk1 hk2 => ?_⟩
    exact keyLt_asymm (hr k (by omega) hk2)
  | succ n ih =>
    intro l r h1 h2 h3 hl hr
    rw [SortedPageRef.rankAux]
    by_cases h : l < r
    · rw [if_pos h]
      have hml : l ≤ (l + r) / 2 :=
        (Nat.le_div_iff_mul_le (by omega)).mpr (by omega)
      have hmr : (l + r) / 2 < r :=
        (Nat.div_lt_iff_lt_mul (by omega)).mpr (by omega)
      cases hcmp : compareKey (SortedPageRef.keyAtIdx c ((l + r) / 2)) t
      · -- the probed key is below the target: search the right half
        simp only [hcmp]
        apply ih ((l + r) / 2 + 1) r (by omega) (by omega) h3
        · intro k hk
          by_cases hkl : k < l
          · exact hl k hkl
          · by_cases hkm : k < (l + r) / 2
            · exact keyLt_trans (hs ((l + r) / 2) (by omega) k hkm) hcmp
            · have hk2 : k = (l + r) / 2 := by omega
              rw [hk2]
              exact hcmp
        · exact hr
      · -- exact hit: the probed key equals the target
        simp only [hcmp]
        have hmt : SortedPageRef.keyAtIdx c ((l + r) / 2) = t :=
          (compareKey_eq_iff _ _).mp hcmp
        constructor
        · intro k hk
          have := hs ((l + r) / 2) (by omega) k hk
          rw [hmt] at this
          exact this
        · intro k hk1 hk2
          by_cases hkm : k = (l + r) / 2
          · rw [hkm, hmt]
            exact keyLt_irrefl t
          · have := hs k hk2 ((l + r) / 2) (by omega)
            rw [hmt] at this
            exact keyLt_asymm this
      · -- the probed key is above the target: search the left half
        simp only [hcmp]
        have hmt : keyLt t (SortedPageRef.keyAtIdx c ((l + r) / 2)) := by
          unfold keyLt
          rw [compareKey_swap, hcmp]
          rfl
        apply ih l ((l + r) / 2) (by omega) (by omega) (by omega) hl
        intro k hk1 hk2
        by_cases hkm : k = (l + r) / 2
        · rw [hkm]
          exact hmt
        · exact keyLt_trans hmt (hs k hk2 ((l + r) / 2) (by omega))
    · rw [if_neg h]
      refine ⟨fun k hk => hl k hk, fun k hk1 hk2 => ?_⟩
      exact keyLt_asymm (hr k (by omega) hk2)

/-- C2: on a page sorted by raw key ascending then lsn descending, `seek`
returns the first record at or past the probe `(raw, L)`: every record
below `rank` is strictly before the probe and the record at `rank` (when
it exists) is at or past it; when the page has a record for `raw` with
lsn at most `L`, `seek` returns the record for `raw` carrying the
greatest such lsn (the freshest visible version); and `seek` returns
`none` when every record is strictly before the probe. -/
theorem c2_seek_first_visible (c : List Nat) (raw : RawBytes) (L : Nat)
    (hs : pageSorted c) :
    (∀ k, k < SortedPageRef.rank c (raw, L) →
      keyLt (SortedPageRef.keyAtIdx c k) (raw, L)) ∧
    (SortedPageRef.rank c (raw, L) < SortedPageRef.len c →
      SortedPageRef.seek c (raw, L) =
        SortedPageRef.index c (SortedPageRef.rank c (raw, L)) ∧
      keyLe (raw, L)
        (SortedPageRef.keyAtIdx c (SortedPageRef.rank c (raw, L)))) ∧
    ((∃ i, i < SortedPageRef.len c ∧
        (SortedPageRef.keyAtIdx c i).1 = raw ∧
        (SortedPageRef.keyAtIdx c i).2 ≤ L) →
      ∃ j, j < SortedPageRef.len c ∧
        SortedPageRef.seek c (raw, L) = SortedPageRef.index c j ∧
        SortedPageRef.rank c (raw, L) = j ∧
        (SortedPageRef.keyAtIdx c j).1 = raw ∧
        (SortedPageRef.keyAtIdx c j).2 ≤ L ∧
        ∀ i, i < SortedPageRef.len c →
          (SortedPageRef.keyAtIdx c i).1 = raw →
          (SortedPageRef.keyAtIdx c i).2 ≤ L →
          (SortedPageRef.keyAtIdx c i).2 ≤
            (SortedPageRef.keyAtIdx c j).2) ∧
    ((∀ i, i < SortedPageRef.len c →
        keyLt (SortedPageRef.keyAtIdx c i) (raw, L)) →
      SortedPageRef.seek c (raw, L) = none) := by
  have hcore := rankAux_correct c (raw, L) hs (SortedPageRef.numEntries c)
    0 (SortedPageRef.numEntries c) (by omega) (by omega) (by omega)
    (fun k hk => absurd hk (Nat.not_lt_zero k))
    (fun k hk1 hk2 => absurd (by omega : k < k) (by omega))
  have hA : ∀ k, k < SortedPageRef.rank c (raw, L) →
      keyLt (SortedPageRef.keyAtIdx c k) (raw, L) := hcore.1
  have hB : ∀ k, SortedPageRef.rank c (raw, L) ≤ k →
      k < SortedPageRef.numEntries c →
      ¬ keyLt (SortedPageRef.keyAtIdx c k) (raw, L) := hcore.2
  have hbound := rank_le_len c (raw, L)
  refine ⟨hA, ?_, ?_, ?_⟩
  · intro hlt
    exact ⟨rfl, not_keyLt_to_keyLe (hB _ (le_refl _) hlt)⟩
  · rintro ⟨i, hi, hraw, hlsn⟩
    have hi' : i < SortedPageRef.numEntries c := hi
    have hkeyi : SortedPageRef.keyAtIdx c i =
        (raw, (SortedPageRef.keyAtIdx c i).2) := Prod.ext hraw rfl
    have hnotlt : ¬ keyLt (SortedPageRef.keyAtIdx c i) (raw, L) := by
      unfold keyLt
      rw [hkeyi, compareKey_same_raw]
      rw [show (¬ cmpNat L (SortedPageRef.keyAtIdx c i).2 = .lt) =
        ¬ (cmpNat L (SortedPageRef.keyAtIdx c i).2 = .lt) from rfl]
      rw [cmpNat_lt_iff]
      omega
    have hranki : SortedPageRef.rank c (raw, L) ≤ i := by
      by_contra hc
      push_neg at hc
      exact hnotlt (hA i hc)
    have hrlen : SortedPageRef.rank c (raw, L) <
        SortedPageRef.numEntries c := by omega
    clear hi
    have hge : keyLe (raw, L)
        (SortedPageRef.keyAtIdx c (SortedPageRef.rank c (raw, L))) :=
      not_keyLt_to_keyLe (hB _ (le_refl _) hrlen)
    have hle_any : ∀ p, SortedPageRef.rank c (raw, L) ≤ p →
        p < SortedPageRef.numEntries c →
        keyLe (SortedPageRef.keyAtIdx c (SortedPageRef.rank c (raw, L)))
          (SortedPageRef.keyAtIdx c p) := by
      intro p hp1 hp2
      rcases Nat.lt_or_ge (SortedPageRef.rank c (raw, L)) p with hc | hc
      · exact keyLt_to_keyLe (hs p hp2 _ hc)
      · have : SortedPageRef.rank c (raw, L) = p := by omega
        rw [this]
        exact keyLe_refl _
    have hle_i : keyLe
        (SortedPageRef.keyAtIdx c (SortedPageRef.rank c (raw, L)))
        (raw, (SortedPageRef.keyAtIdx c i).2) := by
      have h0 := hle_any i hranki hi'
      rw [hkeyi] at h0
      exact h0
    obtain ⟨hr1, hr2, _⟩ := key_sandwich hge hle_i
    refine ⟨SortedPageRef.rank c (raw, L), hrlen, rfl, rfl, hr1, hr2, ?_⟩
    intro q hq hrawq hlsnq
    have hkeyq : SortedPageRef.keyAtIdx c q =
        (raw, (SortedPageRef.keyAtIdx c q).2) := Prod.ext hrawq rfl
    have hnotltq : ¬ keyLt (SortedPageRef.keyAtIdx c q) (raw, L) := by
      unfold keyLt
      rw [hkeyq, compareKey_same_raw]
      rw [show (¬ cmpNat L (SortedPageRef.keyAtIdx c q).2 = .lt) =
        ¬ (cmpNat L (SortedPageRef.keyAtIdx c q).2 = .lt) from rfl]
      rw [cmpNat_lt_iff]
      omega
    have hrankq : SortedPageRef.rank c (raw, L) ≤ q := by
      by_contra hc
      push_neg at hc
      exact hnotltq (hA q hc)
    have hleq := hle_any q hrankq hq
    have hkr : SortedPageRef.keyAtIdx c (SortedPageRef.rank c (raw, L)) =
        (raw, (SortedPageRef.keyAtIdx c
          (SortedPageRef.rank c (raw, L))).2) := Prod.ext hr1 rfl
    rw [hkr, hkeyq] at hleq
    exact (keyLe_same_raw raw _ _).mp hleq
  · intro hall
    have hner : ¬ SortedPageRef.rank c (raw, L) <
        SortedPageRef.numEntries c := by
      intro hlt
      exact hB _ (le_refl _) hlt (hall _ hlt)
    unfold SortedPageRef.seek SortedPageRef.index
    rw [if_neg (by omega)]

/-- A concrete decoded page for the C2 witness: three records
`([1], lsn 5)`, `([1], lsn 3)` and `([2], lsn 4)`, with content-consistent
offsets (entries live at content positions 24, 36 and 48; positions 12-23
are unreferenced padding). -/
def c2page : List Nat :=
  [12, 0, 0, 0, 24, 0, 0, 0, 36, 0, 0, 0,
   0, 0, 0, 0, 0, 0, 0, 0, 0, 0, 0, 0] ++
  [1, 1, 5, 0, 0, 0, 0, 0, 0, 0, 1, 9] ++
  [1, 1, 3, 0, 0, 0, 0, 0, 0, 0, 1, 8] ++
  [1, 2, 4, 0, 0, 0, 0, 0, 0, 0, 1, 7]

/-- Witness for the C2 seek theorem: the concrete page is sorted, and for
the probe `([1], 4)` the seek lands on the freshest visible version
`([1], lsn 3)`. -/
theorem c2_seek_first_visible_witness :
    pageSorted c2page ∧
    (SortedPageRef.rank c2page ([1], 4) < SortedPageRef.len c2page →
      SortedPageRef.seek c2page ([1], 4) =
        SortedPageRef.index c2page (SortedPageRef.rank c2page ([1], 4)) ∧
      keyLe (([1] : RawBytes), 4)
        (SortedPageRef.keyAtIdx c2page
          (SortedPageRef.rank c2page ([1], 4)))) ∧
    SortedPageRef.seek c2page ([1], 4) = some (([1], 3), [8]) :=
  ⟨by decide, (c2_seek_first_visible c2page [1] 4 (by decide)).2.1,
   by decide⟩

/-- Modelled from the spec: the leaf write operations (spec section 3,
"Delta: variant: put, delete"). -/
inductive WriteOp where
  | put : PageValue → WriteOp
  | del : WriteOp
deriving DecidableEq

/-- Modelled from the spec: one delta record layered over a chain (spec
sections 3 and 4.5). -/
structure DeltaEntry where
  key : RawBytes
  lsn : Nat
  op : WriteOp
deriving DecidableEq

/-- A delta chain, head first (newest first). -/
abbrev Chain := List DeltaEntry

/-- Modelled from the spec: `Map` and the tree are not under `src/`; spec
section 4.6 installs a put delta referencing the current head as `next`,
i.e. prepends it to the chain. -/
def Map.put (st : Chain) (k : RawBytes) (L : Nat) (v : PageValue) : Chain :=
  ⟨k, L, .put v⟩ :: st

/-- Modelled from the spec: a delete installs a tombstone delta (spec
sections 4.5 and 4.6). -/
def Map.delete (st : Chain) (k : RawBytes) (L : Nat) : Chain :=
  ⟨k, L, .del⟩ :: st

/-- Modelled from the spec: the Find walk of section 4.5: "walk from head;
for each delta, if its key equals `key` and its LSN ≤ `lsn`, return its
value (or tombstone)"; the base page of a fresh tree is empty. -/
def findDelta : Chain → RawBytes → Nat → Option WriteOp
  | [], _, _ => none
  | e :: t, k, L =>
    if e.key = k ∧ e.lsn ≤ L then some e.op else findDelta t k L

/-- Modelled from the spec: `get(key, lsn, visit)` of section 4.6 — the
visitor observes the located value, or nothing for tombstone/absence. -/
def Map.get (st : Chain) (k : RawBytes) (L : Nat) : Option PageValue :=
  match findDelta st k L with
  | some (.put v) => some v
  | _ => none

/-- Replay a write history (oldest first) against an empty tree. -/
def applyWrite (st : Chain) (e : DeltaEntry) : Chain :=
  match e.op with
  | .put v => Map.put st e.key e.lsn v
  | .del => Map.delete st e.key e.lsn

/-- The chain obtained by replaying a history of writes. -/
def runWrites (hist : List DeltaEntry) : Chain :=
  hist.foldl applyWrite []

/-- Installing any write prepends its delta. -/
theorem applyWrite_cons (st : Chain) (e : DeltaEntry) :
    applyWrite st e = e :: st := by
  unfold applyWrite Map.put Map.delete
  cases hop : e.op <;> simp [← hop]

/-- Replaying a history yields its reverse as a chain. -/
theorem runWrites_eq_reverse (hist : List DeltaEntry) :
    runWrites hist = hist.reverse := by
  unfold runWrites
  have haux : ∀ acc : Chain, hist.foldl applyWrite acc =
      hist.reverse ++ acc := by
    induction hist with
    | nil => intro acc; simp
    | cons e t ih =>
      intro acc
      rw [List.foldl_cons, applyWrite_cons, ih]
      simp
  rw [haux []]
  simp

/-- A prefix of the chain with no record matching the probe is skipped by
the Find walk. -/
theorem findDelta_no_match (xs : Chain) (k : RawBytes) (L : Nat)
    (h : ∀ e ∈ xs, ¬ (e.key = k ∧ e.lsn ≤ L)) (ys : Chain) :
    findDelta (xs ++ ys) k L = findDelta ys k L := by
  induction xs with
  | nil => simp
  | cons e t ih =>
    rw [List.cons_append, findDelta,
      if_neg (h e (List.mem_cons_self e t))]
    exact ih (fun f hf => h f (List.mem_cons_of_mem e hf))

/-- C4: a successful `put(k, L, v)` is observed by every later
`get(k, L')` with `L' ≥ L`, provided no other write to `k` with lsn at
most `L'` intervenes. -/
theorem c4_put_then_get (h0 h1 : List DeltaEntry) (k : RawBytes)
    (L L' : Nat) (v : PageValue) (hL : L ≤ L')
    (hno : ∀ e ∈ h1, e.key = k → L' < e.lsn) :
    Map.get (runWrites (h0 ++ ⟨k, L, .put v⟩ :: h1)) k L' = some v := by
  rw [runWrites_eq_reverse, List.reverse_append, List.reverse_cons,
    List.append_assoc]
  unfold Map.get
  rw [findDelta_no_match h1.reverse k L' (by
    intro e he hm
    exact absurd hm.2 (by
      have := hno e (List.mem_reverse.mp he) hm.1
      omega))]
  rw [List.singleton_append, findDelta, if_pos ⟨rfl, hL⟩]

/-- Witness for C4 at a concrete history: a put of `[9]` to key `[1]` at
lsn 2, with an unrelated later write, is observed at lsn 3. -/
theorem c4_put_then_get_witness :
    (2 ≤ 3 ∧ (∀ e ∈ [(⟨[2], 4, .put [5]⟩ : DeltaEntry)],
      e.key = [1] → 3 < e.lsn)) ∧
    Map.get (runWrites ([⟨[1], 1, .put [4]⟩] ++
      ⟨[1], 2, .put [9]⟩ :: [⟨[2], 4, .put [5]⟩])) [1] 3 = some [9] :=
  ⟨⟨by omega, by decide⟩,
   c4_put_then_get [⟨[1], 1, .put [4]⟩] [⟨[2], 4, .put [5]⟩] [1] 2 3 [9]
     (by omega) (by decide)⟩

/-- If every matching record of the chain prefix is a tombstone and the
rest of the walk yields a tombstone, the visitor observes absence. -/
theorem get_none_of_matches_del (xs : Chain) (k : RawBytes) (L' : Nat)
    (hdel : ∀ e ∈ xs, e.key = k → e.lsn ≤ L' → e.op = .del) (ys : Chain)
    (hy : findDelta ys k L' = some .del) :
    Map.get (xs ++ ys) k L' = none := by
  induction xs with
  | nil =>
    unfold Map.get
    rw [List.nil_append, hy]
  | cons e t ih =>
    unfold Map.get
    rw [List.cons_append, findDelta]
    by_cases hm : e.key = k ∧ e.lsn ≤ L'
    · rw [if_pos hm, hdel e (List.mem_cons_self e t) hm.1 hm.2]
    · rw [if_neg hm]
      have := ih (fun f hf => hdel f (List.mem_cons_of_mem e hf))
      unfold Map.get at this
      exact this

/-- C5: after a successful `delete(k, L)`, every later `get(k, L')` with
`L' ≥ L` observes absence, as long as no later put to `k` is visible at
`L'` (later deletes are allowed). -/
theorem c5_delete_then_get (h0 h1 : List DeltaEntry) (k : RawBytes)
    (L L' : Nat) (hL : L ≤ L')
    (hnoput : ∀ e ∈ h1, e.key = k → e.lsn ≤ L' → e.op = .del) :
    Map.get (runWrites (h0 ++ ⟨k, L, .del⟩ :: h1)) k L' = none := by
  rw [runWrites_eq_reverse, List.reverse_append, List.reverse_cons,
    List.append_assoc, List.singleton_append]
  apply get_none_of_matches_del h1.reverse k L'
    (fun e he => hnoput e (List.mem_reverse.mp he))
  rw [findDelta, if_pos ⟨rfl, hL⟩]

/-- Witness for C5 at a concrete history: a delete of key `[1]` at lsn 2
is observed as absence at lsn 3 despite an earlier put. -/
theorem c5_delete_then_get_witness :
    (2 ≤ 3 ∧ (∀ e ∈ ([] : List DeltaEntry),
      e.key = [1] → e.lsn ≤ 3 → e.op = .del)) ∧
    Map.get (runWrites ([⟨[1], 1, .put [4]⟩] ++
      ⟨[1], 2, .del⟩ :: [])) [1] 3 = none :=
  ⟨⟨by omega, by decide⟩,
   c5_delete_then_get [⟨[1], 1, .put [4]⟩] [] [1] 2 3
     (by omega) (by decide)⟩

/-- Modelled from the spec: the range view of section 4.5 — "build a
merge-iterator over each delta and the base sorted array; duplicates are
resolved by preferring the topmost occurrence (newest)".  `collect` keeps,
for every key, its topmost (first-from-head) write. -/
def collect : Chain → List (RawBytes × WriteOp)
  | [] => []
  | e :: t => (e.key, e.op) :: (collect t).filter (fun p => decide (p.1 ≠ e.key))

/-- The visible bindings of a chain: topmost writes that are puts
(tombstones observe as absence and are not visited, spec sections 1, 3
and 4.5). -/
def visibleList (st : Chain) : List (RawBytes × PageValue) :=
  (collect st).filterMap (fun p =>
    match p.2 with
    | .put v => some (p.1, v)
    | .del => none)

/-- Non-strict lexicographic byte order on bindings, used to order the
scan. -/
def bytesLePair (p q : RawBytes × PageValue) : Prop := cmpBytes p.1 q.1 ≠ .gt

instance : DecidableRel bytesLePair := fun p q => by
  unfold bytesLePair; infer_instance

/-- Non-strict byte order is total. -/
instance : IsTotal (RawBytes × PageValue) bytesLePair where
  total p q := by
    unfold bytesLePair
    cases h : cmpBytes p.1 q.1
    · exact Or.inl (by simp)
    · exact Or.inl (by simp)
    · refine Or.inr ?_
      rw [cmpBytes_swap p.1 q.1, h]
      simp [Ordering.swap]

/-- Non-strict lexicographic byte order is transitive. -/
theorem cmpBytes_le_trans {a b c : RawBytes} (h1 : cmpBytes a b ≠ .gt)
    (h2 : cmpBytes b c ≠ .gt) : cmpBytes a c ≠ .gt := by
  cases hab : cmpBytes a b
  · cases hbc : cmpBytes b c
    · rw [cmpBytes_lt_trans a b c hab hbc]; simp
    · rw [cmpBytes_eq_iff] at hbc
      rw [← hbc, hab]; simp
    · exact absurd hbc h2
  · rw [cmpBytes_eq_iff] at hab
    rw [hab]
    exact h2
  · exact absurd hab h1

instance : IsTrans (RawBytes × PageValue) bytesLePair where
  trans p q r h1 h2 := cmpBytes_le_trans h1 h2

/-- Modelled from the spec: `iter()` of sections 4.7 and 6 — an ordered
forward scan visiting, in ascending key order, every key whose freshest
write is a put, paired with that value. -/
def Map.iter (st : Chain) : List (RawBytes × PageValue) :=
  List.insertionSort bytesLePair (visibleList st)

/-- The keys appearing in the merged view are exactly the keys written in
the chain. -/
theorem collect_mem_key (st : Chain) :
    ∀ k : RawBytes, (∃ op, (k, op) ∈ collect st) ↔ ∃ e ∈ st, e.key = k := by
  induction st with
  | nil => intro k; simp [collect]
  | cons e t ih =>
    intro k
    rw [collect]
    constructor
    · rintro ⟨op, hop⟩
      rcases List.mem_cons.mp hop with heq | hmem
      · have h1 : k = e.key := congrArg Prod.fst heq
        exact ⟨e, List.mem_cons_self e t, h1.symm⟩
      · rw [List.mem_filter] at hmem
        obtain ⟨f, hf, hk⟩ := (ih k).mp ⟨op, hmem.1⟩
        exact ⟨f, List.mem_cons_of_mem e hf, hk⟩
    · rintro ⟨f, hf, hk⟩
      rcases List.mem_cons.mp hf with heq | hf'
      · subst heq
        exact ⟨f.op, by rw [← hk]; exact List.mem_cons_self _ _⟩
      · by_cases hke : k = e.key
        · exact ⟨e.op, by rw [hke]; exact List.mem_cons_self _ _⟩
        · obtain ⟨op, hop⟩ := (ih k).mpr ⟨f, hf', hk⟩
          refine ⟨op, List.mem_cons_of_mem _ ?_⟩
          rw [List.mem_filter]
          exact ⟨hop, by simpa using hke⟩

/-- On a chain with strictly decreasing lsns (newest first), the merged
view binds every key to its newest write. -/
theorem collect_newest (st : Chain)
    (hdec : st.Pairwise (fun a b => b.lsn < a.lsn)) :
    ∀ k op, (k, op) ∈ collect st →
      ∃ e ∈ st, e.key = k ∧ e.op = op ∧
        ∀ f ∈ st, f.key = k → f.lsn ≤ e.lsn := by
  induction st with
  | nil => intro k op h; simp [collect] at h
  | cons e t ih =>
    intro k op h
    rw [collect] at h
    obtain ⟨hhead, htail⟩ := List.pairwise_cons.mp hdec
    rcases List.mem_cons.mp h with heq | hmem
    · have h1 : k = e.key := congrArg Prod.fst heq
      have h2 : op = e.op := congrArg Prod.snd heq
      refine ⟨e, List.mem_cons_self e t, h1.symm, h2.symm, ?_⟩
      intro f hf hfk
      rcases List.mem_cons.mp hf with heqf | hf'
      · rw [heqf]
      · have := hhead f hf'
        omega
    · rw [List.mem_filter] at hmem
      have hne : k ≠ e.key := by simpa using hmem.2
      obtain ⟨g, hg, hgk, hgop, hmax⟩ := ih htail k op hmem.1
      refine ⟨g, List.mem_cons_of_mem e hg, hgk, hgop, ?_⟩
      intro f hf hfk
      rcases List.mem_cons.mp hf with heqf | hf'
      · exact absurd (heqf ▸ hfk).symm hne
      · exact hmax f hf' hfk

/-- The merged view has no duplicate keys. -/
theorem collect_keys_pairwise (st : Chain) :
    (collect st).Pairwise (fun p q => p.1 ≠ q.1) := by
  induction st with
  | nil => simp [collect]
  | cons e t ih =>
    rw [collect]
    refine List.Pairwise.cons ?_ (List.Pairwise.filter _ ih)
    intro q hq
    rw [List.mem_filter] at hq
    have hne : q.1 ≠ e.key := by simpa using hq.2
    exact fun hcontra => hne (by rw [← hcontra])

/-- The visibility projection of a topmost write. -/
def visiblePair (p : RawBytes × WriteOp) : Option (RawBytes × PageValue) :=
  match p.2 with
  | .put v => some (p.1, v)
  | .del => none

/-- `visiblePair` preserves the key. -/
theorem visiblePair_fst {p : RawBytes × WriteOp}
    {b : RawBytes × PageValue} (h : visiblePair p = some b) : b.1 = p.1 := by
  unfold visiblePair at h
  cases hop : p.2 <;> rw [hop] at h
  · injection h with h'
    rw [← h']
  · cases h

/-- `visibleList` is the `visiblePair` projection of the merged view. -/
theorem visibleList_eq (st : Chain) :
    visibleList st = (collect st).filterMap visiblePair := by
  unfold visibleList visiblePair
  rfl

/-- Membership in the visible bindings is membership of a put in the
merged view. -/
theorem mem_visibleList (st : Chain) (k : RawBytes) (v : PageValue) :
    (k, v) ∈ visibleList st ↔ (k, WriteOp.put v) ∈ collect st := by
  rw [visibleList_eq, List.mem_filterMap]
  constructor
  · rintro ⟨⟨p1, p2⟩, hp, hf⟩
    cases p2 with
    | put w =>
      unfold visiblePair at hf
      injection hf with hf'
      have h1 : p1 = k := congrArg Prod.fst hf'
      have h2 : w = v := congrArg Prod.snd hf'
      rw [← h1, ← h2]
      exact hp
    | del =>
      unfold visiblePair at hf
      cases hf
  · intro h
    exact ⟨(k, .put v), h, rfl⟩

/-- The visible bindings have no duplicate keys. -/
theorem visibleList_keys_pairwise (st : Chain) :
    (visibleList st).Pairwise (fun p q => p.1 ≠ q.1) := by
  rw [visibleList_eq]
  refine List.Pairwise.filterMap visiblePair ?_ (collect_keys_pairwise st)
  intro a b hne x hx y hy
  rw [Option.mem_def] at hx hy
  rw [visiblePair_fst hx, visiblePair_fst hy]
  exact hne

/-- C6: iterating an empty tree visits nothing; after replaying a history
of puts at strictly increasing lsns, the iterator visits exactly the keys
written, in strictly ascending key order, each paired with the value of
the write to that key with the greatest lsn. -/
theorem c6_iter_visits (hist : List DeltaEntry)
    (hput : ∀ e ∈ hist, e.op ≠ .del)
    (hmono : hist.Pairwise (fun a b => a.lsn < b.lsn)) :
    Map.iter (runWrites []) = [] ∧
    (∀ k, (∃ v, (k, v) ∈ Map.iter (runWrites hist)) ↔
      ∃ e ∈ hist, e.key = k) ∧
    (Map.iter (runWrites hist)).Pairwise
      (fun p q => cmpBytes p.1 q.1 = .lt) ∧
    (∀ k v, (k, v) ∈ Map.iter (runWrites hist) →
      ∃ e ∈ hist, e.key = k ∧ e.op = .put v ∧
        ∀ f ∈ hist, f.key = k → f.lsn ≤ e.lsn) := by
  have hperm := List.perm_insertionSort bytesLePair
    (visibleList (runWrites hist))
  have hchain : runWrites hist = hist.reverse := runWrites_eq_reverse hist
  have hdec : (hist.reverse).Pairwise (fun a b => b.lsn < a.lsn) :=
    List.pairwise_reverse.mpr hmono
  refine ⟨rfl, ?_, ?_, ?_⟩
  · intro k
    constructor
    · rintro ⟨v, hv⟩
      have hv' : (k, v) ∈ visibleList (runWrites hist) :=
        hperm.mem_iff.mp hv
      rw [mem_visibleList, hchain] at hv'
      obtain ⟨e, he, hek, _, _⟩ :=
        collect_newest hist.reverse hdec k (.put v) hv'
      exact ⟨e, List.mem_reverse.mp he, hek⟩
    · rintro ⟨e, he, hek⟩
      obtain ⟨op, hop⟩ := (collect_mem_key hist.reverse k).mpr
        ⟨e, List.mem_reverse.mpr he, hek⟩
      obtain ⟨f, hf, _, hfop, _⟩ :=
        collect_newest hist.reverse hdec k op hop
      have hne : op ≠ .del := by
        rw [← hfop]
        exact hput f (List.mem_reverse.mp hf)
      obtain ⟨v, rfl⟩ : ∃ v, op = .put v := by
        cases op with
        | put v => exact ⟨v, rfl⟩
        | del => exact absurd rfl hne
      refine ⟨v, ?_⟩
      unfold Map.iter
      rw [List.Perm.mem_iff (List.perm_insertionSort bytesLePair _)]
      rw [mem_visibleList, hchain]
      exact hop
  · have hsorted : (Map.iter (runWrites hist)).Pairwise bytesLePair :=
      List.sorted_insertionSort bytesLePair _
    have hnd : (Map.iter (runWrites hist)).Pairwise
        (fun p q => p.1 ≠ q.1) := by
      refine (List.Perm.pairwise_iff ?_ hperm).mpr
        (visibleList_keys_pairwise (runWrites hist))
      intro p q h
      exact h.symm
    refine (hsorted.and hnd).imp ?_
    intro p q hpq
    obtain ⟨hle, hne⟩ := hpq
    unfold bytesLePair at hle
    cases hc : cmpBytes p.1 q.1
    · rfl
    · exact absurd ((cmpBytes_eq_iff p.1 q.1).mp hc) hne
    · exact absurd hc hle
  · intro k v hv
    have hv' : (k, v) ∈ visibleList (runWrites hist) :=
      hperm.mem_iff.mp hv
    rw [mem_visibleList, hchain] at hv'
    obtain ⟨e, he, hek, heop, hmax⟩ :=
      collect_newest hist.reverse hdec k (.put v) hv'
    refine ⟨e, List.mem_reverse.mp he, hek, heop, ?_⟩
    intro f hf hfk
    exact hmax f (List.mem_reverse.mpr hf) hfk

/-- Witness for C6 at a concrete two-put history written in descending
key order. -/
theorem c6_iter_visits_witness :
    ((∀ e ∈ [(⟨[2], 1, .put [5]⟩ : DeltaEntry), ⟨[1], 2, .put [6]⟩],
        e.op ≠ .del) ∧
      ([(⟨[2], 1, .put [5]⟩ : DeltaEntry), ⟨[1], 2, .put [6]⟩].Pairwise
        (fun a b => a.lsn < b.lsn))) ∧
    (Map.iter (runWrites []) = [] ∧
      ∀ k v, (k, v) ∈ Map.iter (runWrites
          [(⟨[2], 1, .put [5]⟩ : DeltaEntry), ⟨[1], 2, .put [6]⟩]) →
        ∃ e ∈ [(⟨[2], 1, .put [5]⟩ : DeltaEntry), ⟨[1], 2, .put [6]⟩],
          e.key = k ∧ e.op = .put v ∧
          ∀ f ∈ [(⟨[2], 1, .put [5]⟩ : DeltaEntry), ⟨[1], 2, .put [6]⟩],
            f.key = k → f.lsn ≤ e.lsn) :=
  ⟨⟨by decide, by decide⟩,
   ⟨(c6_iter_visits [⟨[2], 1, .put [5]⟩, ⟨[1], 2, .put [6]⟩]
      (by decide) (by decide)).1,
    (c6_iter_visits [⟨[2], 1, .put [5]⟩, ⟨[1], 2, .put [6]⟩]
      (by decide) (by decide)).2.2.2⟩⟩
